import Mathlib

/-!
Verification of the dolphiner route-simplification pipeline.

The repository preprocesses a recorded ship track (a table with `lat` and
`lon` columns), simplifies it with the Ramer-Douglas-Peucker (RDP)
algorithm, and exposes vessel lookups keyed by MMSI.

Embedding notes.

Coordinates are modelled as exact rationals (`ℚ`).  The reference
perpendicular distance of §4.2 is `|cross| / ‖B - A‖` (Euclidean distance
to `A` when `A = B`), an irrational square root in general; we represent
every distance by its square (`distSq`), which is exact in `ℚ`.  All
comparisons the algorithm performs are faithfully mirrored on squares:
for points compared against the same segment, `dist P < dist Q ↔
distSq P < distSq Q`, and for a nonnegative tolerance `eps` (the only
tolerances the engine admits), `dist P > eps ↔ eps * eps < distSq P`
because distances are nonnegative.

The recursive simplifier itself lives in the third-party `rdp` package,
whose source is not part of this repository; it is modelled from the
specification below: `simplify` is the §4.3 contract, which validates
the tolerance eagerly and fails with the `InvalidToleranceError` of §7
when it is negative (§8), before any recursion, and otherwise runs the
recursion `simplifyF` of §4.2-§4.3.  Everything else
(`simplify_route`, the column check, the output frame construction, the
MMSI lookups) is translated from `src/utils/processing.py`,
`src/utils/modeling.py` and `src/utils/probleming.py`.
-/

namespace Dolphiner

/-- A geographic sample, `(lat, lon)`, as extracted row-wise by
`data[["lat", "lon"]].values` in `simplify_route`. -/
abbrev Point : Type := ℚ × ℚ

/-- Modelled from the spec (§4.2, matching `rdp.pldist`): the square of the
perpendicular distance from `P` to the infinite line through `A` and `B`,
falling back to the square of the Euclidean distance from `P` to `A` when
`A = B`.  The cross product `(B - A) × (A - P)` is the 2D scalar cross. -/
def distSq (P A B : Point) : ℚ :=
  if A = B then
    (P.1 - A.1) * (P.1 - A.1) + (P.2 - A.2) * (P.2 - A.2)
  else
    ((B.1 - A.1) * (A.2 - P.2) - (A.1 - P.1) * (B.2 - A.2)) *
      ((B.1 - A.1) * (A.2 - P.2) - (A.1 - P.1) * (B.2 - A.2)) /
      ((B.1 - A.1) * (B.1 - A.1) + (B.2 - A.2) * (B.2 - A.2))

theorem distSq_nonneg (P A B : Point) : 0 ≤ distSq P A B := by
  unfold distSq
  split
  · exact add_nonneg (mul_self_nonneg _) (mul_self_nonneg _)
  · apply div_nonneg
    · exact mul_self_nonneg _
    · exact add_nonneg (mul_self_nonneg _) (mul_self_nonneg _)

/-- Modelled from the spec (§4.3): the index (into `l`) and squared
distance of the point of `l` farthest from the segment `A`-`B`; on exact
ties the first such point in index order is selected.  This is the scan
`for i in range(...): if d > dmax` of the reference implementation. -/
def farthest (A B : Point) : List Point → Nat × ℚ
  | [] => (0, 0)
  | [p] => (0, distSq p A B)
  | p :: q :: rest =>
    let r := farthest A B (q :: rest)
    if distSq p A B ≥ r.2 then (0, distSq p A B) else (r.1 + 1, r.2)

/-- First point of a route (the reference implementation reads `M[0]`). -/
def headPt (ps : List Point) : Point := ps.headD (0, 0)

/-- Last point of a route (the reference implementation reads `M[-1]`). -/
def lastPt (ps : List Point) : Point := ps.getLastD (0, 0)

theorem farthest_fst_lt (A B : Point) :
    ∀ l : List Point, l ≠ [] → (farthest A B l).1 < l.length := by
  intro l
  induction l with
  | nil => intro h; exact absurd rfl h
  | cons p t ih =>
    intro _
    cases t with
    | nil => simp [farthest]
    | cons q rest =>
      rw [farthest]
      split
      · simp
      · have := ih (by simp)
        simpa using Nat.succ_lt_succ this

theorem farthest_snd_eq (A B : Point) :
    ∀ l : List Point, l ≠ [] →
      (farthest A B l).2 = distSq (l.getD (farthest A B l).1 (0, 0)) A B := by
  intro l
  induction l with
  | nil => intro h; exact absurd rfl h
  | cons p t ih =>
    intro _
    cases t with
    | nil => simp [farthest]
    | cons q rest =>
      rw [farthest]
      split
      · simp
      · have := ih (by simp)
        simpa using this

theorem farthest_le (A B : Point) :
    ∀ l : List Point, ∀ x ∈ l, distSq x A B ≤ (farthest A B l).2 := by
  intro l
  induction l with
  | nil => intro x hx; exact absurd hx (List.not_mem_nil x)
  | cons p t ih =>
    intro x hx
    cases t with
    | nil =>
      rcases List.mem_singleton.mp hx with rfl
      simp [farthest]
    | cons q rest =>
      rw [farthest]
      rcases List.mem_cons.mp hx with rfl | hx
      · split
        · simp
        · rename_i hge
          push_neg at hge
          simpa using le_of_lt hge
      · have hle := ih x hx
        split
        · rename_i hge
          simpa using le_trans hle hge
        · simpa using hle

theorem farthest_lt_of_lt (A B : Point) :
    ∀ l : List Point, ∀ j < (farthest A B l).1,
      distSq (l.getD j (0, 0)) A B < (farthest A B l).2 := by
  intro l
  induction l with
  | nil => intro j hj; simp [farthest] at hj
  | cons p t ih =>
    intro j hj
    cases t with
    | nil => simp [farthest] at hj
    | cons q rest =>
      rw [farthest] at hj ⊢
      by_cases hge : distSq p A B ≥ (farthest A B (q :: rest)).2
      · rw [if_pos hge] at hj
        simp at hj
      · rw [if_neg hge] at hj ⊢
        push_neg at hge
        simp only at hj
        cases j with
        | zero => simpa using hge
        | succ j =>
          have hj' : j < (farthest A B (q :: rest)).1 := by omega
          simpa using ih j hj'

theorem getD_mem {l : List Point} {j : Nat} (h : j < l.length) :
    l.getD j (0, 0) ∈ l := by
  rw [List.getD_eq_getElem?_getD, List.getElem?_eq_getElem h]
  exact List.getElem_mem h

theorem farthest_append (A B P : Point) :
    ∀ u w : List Point,
      (∀ x ∈ u, distSq x A B < distSq P A B) →
      (∀ x ∈ w, distSq x A B ≤ distSq P A B) →
      farthest A B (u ++ P :: w) = (u.length, distSq P A B) := by
  intro u
  induction u with
  | nil =>
    intro w _ hw
    cases w with
    | nil => simp [farthest]
    | cons y w2 =>
      have hne : (y :: w2 : List Point) ≠ [] := by simp
      have hlt := farthest_fst_lt A B (y :: w2) hne
      have hle : (farthest A B (y :: w2)).2 ≤ distSq P A B := by
        rw [farthest_snd_eq A B (y :: w2) hne]
        exact hw _ (getD_mem hlt)
      simp only [List.nil_append, farthest]
      rw [if_pos hle]
      simp
  | cons x u2 ih =>
    intro w hu hw
    obtain ⟨q, rest, htl⟩ : ∃ q rest, u2 ++ P :: w = (q :: rest : List Point) := by
      cases u2 <;> exact ⟨_, _, rfl⟩
    have hres : farthest A B (u2 ++ P :: w) = (u2.length, distSq P A B) :=
      ih w (fun x hx => hu x (List.mem_cons_of_mem _ hx)) hw
    have hx : distSq x A B < distSq P A B := hu x (List.mem_cons_self _ _)
    have hcond : ¬ distSq x A B ≥ distSq P A B := not_le.mpr hx
    simp only [List.cons_append]
    rw [htl, farthest, ← htl, hres, if_neg hcond]
    simp

theorem sublist_drop_one_of_cons {l r : List Point} {a : Point}
    (h : List.Sublist l (a :: r)) : List.Sublist (l.drop 1) r := by
  cases l with
  | nil => simp
  | cons x t =>
    cases h with
    | cons _ h2 => exact List.Sublist.trans (List.sublist_cons_self x t) h2
    | cons₂ _ h2 => simpa using h2

theorem sublist_of_concat_concat {l r : List Point} {b : Point}
    (h : List.Sublist (l ++ [b]) (r ++ [b])) : List.Sublist l r := by
  rw [← List.reverse_sublist] at h ⊢
  simp only [List.reverse_append, List.reverse_singleton, List.singleton_append] at h
  have := sublist_drop_one_of_cons h
  simpa using this

/-- Interior of a span: every point strictly between the first and the
last one, in order (§4.3). -/
def midOf (ps : List Point) : List Point := (ps.drop 1).dropLast

/-- Index (into `midOf ps`) of the split point `P*` of §4.3: the interior
point with the maximum §4.2 distance from the segment joining the first
and last points, the first such point on exact ties. -/
def splitIdx (ps : List Point) : Nat :=
  (farthest (headPt ps) (lastPt ps) (midOf ps)).1

/-- Squared maximum deviation of the interior of the span (§4.3). -/
def maxDistSq (ps : List Point) : ℚ :=
  (farthest (headPt ps) (lastPt ps) (midOf ps)).2

/-- Modelled from the spec: the recursion of the Douglas-Peucker
simplifier of §4.3, which in the source is the third-party `rdp` function
called by `simplify_route` (its body is not part of this repository).
This is the part of the engine reached after the eager tolerance
validation of `simplify`, so the tolerance here is nonnegative (§4.3
admits only `epsilon ≥ 0`).  A span of fewer than 3 points is returned
unchanged; otherwise the split point `P*` maximising the §4.2 deviation
is located (`farthest`, first index on ties); if its distance exceeds
`eps` — on squares, for the admitted `eps ≥ 0`: `eps * eps < maxDistSq
ps` — the two sub-spans `[A..P*]` and `[P*..B]` are simplified
independently and concatenated with the duplicated `P*` kept once,
else the whole span collapses to `[A, B]`.  The structural `fuel`
argument dominates the recursion depth; `simplifyRun` instantiates it
with the route length, which suffices because every recursive call is on
a strictly shorter span. -/
def simplifyF : Nat → List Point → ℚ → List Point
  | 0, ps, _ => ps
  | fuel + 1, ps, eps =>
    if ps.length < 3 then ps
    else if eps * eps < maxDistSq ps then
      simplifyF fuel (ps.take (splitIdx ps + 2)) eps ++
        (simplifyF fuel (ps.drop (splitIdx ps + 1)) eps).drop 1
    else [headPt ps, lastPt ps]

/-- Modelled from the spec: the full recursion of §4.3 run on a route,
with enough fuel for every sub-span. -/
def simplifyRun (ps : List Point) (eps : ℚ) : List Point :=
  simplifyF ps.length ps eps

/-- Error kinds of the pipeline (§7): the structural `ValueError` raised
by `simplify_route`, the `KeyError` raised by the dict indexing in
`get_ship_potential_optimizations`, and the `InvalidToleranceError` with
which the spec-modelled engine rejects a negative tolerance. -/
inductive PyError where
  | valueError : PyError
  | keyError : PyError
  | invalidToleranceError : PyError
deriving DecidableEq

/-- Modelled from the spec: `simplify(route, epsilon)`, the Recursive
Simplifier contract of §4.3.  Per §4.3 ("fails with an input-validation
error if epsilon < 0"), §7 ("validates epsilon eagerly and fails fast
before recursing") and §8 (`simplify(route, -0.1)` fails with
InvalidToleranceError), a negative tolerance is rejected eagerly, before
any recursion; otherwise the recursion runs to completion. -/
def simplify (ps : List Point) (eps : ℚ) : Except PyError (List Point) :=
  if eps < 0 then Except.error PyError.invalidToleranceError
  else Except.ok (simplifyRun ps eps)

theorem simplifyF_succ {fuel : Nat} {ps : List Point} {eps : ℚ}
    (h3 : ¬ ps.length < 3) :
    simplifyF (fuel + 1) ps eps =
      if eps * eps < maxDistSq ps then
        simplifyF fuel (ps.take (splitIdx ps + 2)) eps ++
          (simplifyF fuel (ps.drop (splitIdx ps + 1)) eps).drop 1
      else [headPt ps, lastPt ps] := by
  rw [simplifyF, if_neg h3]

theorem simplifyF_short {fuel : Nat} {ps : List Point} {eps : ℚ}
    (h : ps.length < 3) : simplifyF fuel ps eps = ps := by
  cases fuel with
  | zero => rfl
  | succ fuel => rw [simplifyF, if_pos h]

theorem midOf_length (ps : List Point) : (midOf ps).length = ps.length - 2 := by
  simp [midOf]
  omega

theorem headPt_cons (a : Point) (l : List Point) : headPt (a :: l) = a := by
  simp [headPt]

theorem lastPt_concat (l : List Point) (b : Point) : lastPt (l ++ [b]) = b := by
  simp [lastPt, List.getLastD_concat]

theorem three_decomp {ps : List Point} (h : 3 ≤ ps.length) :
    ps = headPt ps :: (midOf ps ++ [lastPt ps]) := by
  cases ps with
  | nil => simp at h
  | cons a t =>
    have ht : t ≠ [] := by
      intro h0
      subst h0
      simp at h
    have hlast : lastPt (a :: t) = t.getLast ht := by
      simp only [lastPt, List.getLastD_eq_getLast?,
        List.getLast?_eq_getLast (a :: t) (by simp), Option.getD_some]
      exact List.getLast_cons ht
    have hmid : midOf (a :: t) = t.dropLast := by
      simp [midOf]
    rw [headPt_cons, hmid, hlast, List.dropLast_concat_getLast ht]

theorem take_decomp {A B : Point} {mid : List Point} {k : Nat}
    (hk : k < mid.length) :
    (A :: (mid ++ [B])).take (k + 2) =
      A :: (mid.take k ++ [mid.getD k (0, 0)]) := by
  have h1 : (A :: (mid ++ [B])).take (k + 2) = A :: (mid ++ [B]).take (k + 1) := by
    simp
  rw [h1]
  congr 1
  rw [List.take_append_of_le_length (by omega), List.take_succ,
    List.getElem?_eq_getElem hk]
  simp [List.getD_eq_getElem?_getD, List.getElem?_eq_getElem hk]

theorem drop_decomp {A B : Point} {mid : List Point} {k : Nat}
    (hk : k < mid.length) :
    (A :: (mid ++ [B])).drop (k + 1) =
      mid.getD k (0, 0) :: (mid.drop (k + 1) ++ [B]) := by
  have h1 : (A :: (mid ++ [B])).drop (k + 1) = (mid ++ [B]).drop k := by
    simp
  rw [h1, List.drop_append_of_le_length (le_of_lt hk),
    List.drop_eq_getElem_cons hk]
  simp only [List.getD_eq_getElem?_getD, List.getElem?_eq_getElem hk,
    Option.getD_some, List.cons_append]

theorem splitIdx_lt {ps : List Point} (h3 : 3 ≤ ps.length) :
    splitIdx ps < (midOf ps).length := by
  apply farthest_fst_lt
  have := midOf_length ps
  intro h0
  rw [h0] at this
  simp at this
  omega

theorem take_split {ps : List Point} (h3 : 3 ≤ ps.length) {k : Nat}
    (hk : k < (midOf ps).length) :
    ps.take (k + 2) =
      headPt ps :: ((midOf ps).take k ++ [(midOf ps).getD k (0, 0)]) := by
  conv_lhs => rw [three_decomp h3]
  exact take_decomp hk

theorem drop_split {ps : List Point} (h3 : 3 ≤ ps.length) {k : Nat}
    (hk : k < (midOf ps).length) :
    ps.drop (k + 1) =
      (midOf ps).getD k (0, 0) :: ((midOf ps).drop (k + 1) ++ [lastPt ps]) := by
  conv_lhs => rw [three_decomp h3]
  exact drop_decomp hk

theorem drop2_split {ps : List Point} (h3 : 3 ≤ ps.length) {k : Nat}
    (hk : k < (midOf ps).length) :
    ps.drop (k + 2) = (midOf ps).drop (k + 1) ++ [lastPt ps] := by
  conv_lhs => rw [three_decomp h3]
  have h1 : (headPt ps :: (midOf ps ++ [lastPt ps])).drop (k + 2) =
      (midOf ps ++ [lastPt ps]).drop (k + 1) := by
    simp
  rw [h1, List.drop_append_of_le_length (by omega)]

theorem getLast?_cons_concat (a : Point) (l : List Point) (b : Point) :
    (a :: (l ++ [b])).getLast? = some b := by
  rw [← List.cons_append, List.getLast?_concat]

theorem getLast?_drop_one {l : List Point} (h2 : 2 ≤ l.length) :
    (l.drop 1).getLast? = l.getLast? := by
  cases l with
  | nil => simp at h2
  | cons a t =>
    cases t with
    | nil => simp at h2
    | cons b t2 => simp

theorem eq_cons_append_of {l : List Point} {a b : Point} (h2 : 2 ≤ l.length)
    (hh : l.head? = some a) (hl : l.getLast? = some b) :
    ∃ m, l = a :: (m ++ [b]) := by
  obtain ⟨ys, rfl⟩ := List.head?_eq_some_iff.mp hh
  have hys : ys ≠ [] := by
    intro h0
    subst h0
    simp at h2
  have hl2 : ys.getLast? = some b := by
    cases ys with
    | nil => exact absurd rfl hys
    | cons c t => rw [List.getLast?_cons_cons] at hl; exact hl
  refine ⟨ys.dropLast, ?_⟩
  rw [List.getLast?_eq_getLast ys hys, Option.some_inj] at hl2
  rw [← hl2]
  rw [List.dropLast_concat_getLast hys]

theorem simplifyF_len2 :
    ∀ (fuel : Nat) (ps : List Point) (eps : ℚ), ps.length ≤ fuel →
      2 ≤ ps.length → 2 ≤ (simplifyF fuel ps eps).length := by
  intro fuel
  induction fuel with
  | zero => intro ps eps hle h2; omega
  | succ fuel ih =>
    intro ps eps hle h2
    by_cases h3 : ps.length < 3
    · rw [simplifyF_short h3]; exact h2
    · rw [simplifyF_succ h3]
      push_neg at h3
      have hk := splitIdx_lt h3
      have hml := midOf_length ps
      split
      · have hlt : (ps.take (splitIdx ps + 2)).length = splitIdx ps + 2 :=
          List.length_take_of_le (by omega)
        have hL := ih (ps.take (splitIdx ps + 2)) eps (by omega) (by omega)
        rw [List.length_append]
        omega
      · simp

theorem simplifyF_head :
    ∀ (fuel : Nat) (ps : List Point) (eps : ℚ), ps.length ≤ fuel →
      (simplifyF fuel ps eps).head? = ps.head? := by
  intro fuel
  induction fuel with
  | zero => intro ps eps hle; rfl
  | succ fuel ih =>
    intro ps eps hle
    by_cases h3 : ps.length < 3
    · rw [simplifyF_short h3]
    · rw [simplifyF_succ h3]
      push_neg at h3
      have hk := splitIdx_lt h3
      have hml := midOf_length ps
      split
      · have hlt : (ps.take (splitIdx ps + 2)).length = splitIdx ps + 2 :=
          List.length_take_of_le (by omega)
        have hL := ih (ps.take (splitIdx ps + 2)) eps (by omega)
        have hth : (ps.take (splitIdx ps + 2)).head? = some (headPt ps) := by
          rw [take_split h3 hk]
          rfl
        rw [List.head?_append, hL, hth]
        conv_rhs => rw [three_decomp h3]
        simp
      · conv_rhs => rw [three_decomp h3]
        simp

theorem simplifyF_getLast :
    ∀ (fuel : Nat) (ps : List Point) (eps : ℚ), ps.length ≤ fuel →
      (simplifyF fuel ps eps).getLast? = ps.getLast? := by
  intro fuel
  induction fuel with
  | zero => intro ps eps hle; rfl
  | succ fuel ih =>
    intro ps eps hle
    by_cases h3 : ps.length < 3
    · rw [simplifyF_short h3]
    · rw [simplifyF_succ h3]
      push_neg at h3
      have hk := splitIdx_lt h3
      have hml := midOf_length ps
      split
      · have hdlen : (ps.drop (splitIdx ps + 1)).length = ps.length - (splitIdx ps + 1) := by
          simp
        have hR := ih (ps.drop (splitIdx ps + 1)) eps (by omega)
        have hR2 : 2 ≤ (simplifyF fuel (ps.drop (splitIdx ps + 1)) eps).length :=
          simplifyF_len2 fuel _ eps (by omega) (by omega)
        rw [List.getLast?_append, getLast?_drop_one hR2, hR, drop_split h3 hk,
          getLast?_cons_concat]
        conv_rhs => rw [three_decomp h3]
        rw [getLast?_cons_concat]
        rfl
      · conv_rhs => rw [three_decomp h3]
        rw [getLast?_cons_concat]
        simp

theorem simplifyF_sublist :
    ∀ (fuel : Nat) (ps : List Point) (eps : ℚ), ps.length ≤ fuel →
      List.Sublist (simplifyF fuel ps eps) ps := by
  intro fuel
  induction fuel with
  | zero => intro ps eps hle; exact List.Sublist.refl ps
  | succ fuel ih =>
    intro ps eps hle
    by_cases h3 : ps.length < 3
    · rw [simplifyF_short h3]
    · rw [simplifyF_succ h3]
      push_neg at h3
      have hk := splitIdx_lt h3
      have hml := midOf_length ps
      split
      · have hlt : (ps.take (splitIdx ps + 2)).length = splitIdx ps + 2 :=
          List.length_take_of_le (by omega)
        have hL := ih (ps.take (splitIdx ps + 2)) eps (by omega)
        have hR := ih (ps.drop (splitIdx ps + 1)) eps (by simp; omega)
        have hRc : List.Sublist (simplifyF fuel (ps.drop (splitIdx ps + 1)) eps)
            ((midOf ps).getD (splitIdx ps) (0, 0) ::
              ((midOf ps).drop (splitIdx ps + 1) ++ [lastPt ps])) := by
          rw [← drop_split h3 hk]
          exact hR
        have hRd := sublist_drop_one_of_cons hRc
        rw [← drop2_split h3 hk] at hRd
        have := List.Sublist.append hL hRd
        rwa [List.take_append_drop] at this
      · conv_rhs => rw [three_decomp h3]
        exact List.cons_sublist_cons.mpr
          (List.singleton_sublist.mpr (by simp))

theorem head?_eq_headPt {ps : List Point} (h : ps ≠ []) :
    ps.head? = some (headPt ps) := by
  cases ps with
  | nil => exact absurd rfl h
  | cons a t => simp [headPt]

theorem getLast?_eq_lastPt {ps : List Point} (h : ps ≠ []) :
    ps.getLast? = some (lastPt ps) := by
  simp [lastPt, List.getLast?_eq_getLast ps h]

theorem lastPt_cons_concat (a : Point) (l : List Point) (b : Point) :
    lastPt (a :: (l ++ [b])) = b := by
  simp [lastPt, getLast?_cons_concat]

theorem midOf_cons_concat (a : Point) (l : List Point) (b : Point) :
    midOf (a :: (l ++ [b])) = l := by
  simp [midOf]

theorem simplifyF_mono :
    ∀ (fuel : Nat) (ps : List Point) (e1 e2 : ℚ), ps.length ≤ fuel → 0 ≤ e1 →
      e1 ≤ e2 → List.Sublist (simplifyF fuel ps e2) (simplifyF fuel ps e1) := by
  intro fuel
  induction fuel with
  | zero => intro ps e1 e2 hle h01 h12; exact List.Sublist.refl ps
  | succ fuel ih =>
    intro ps e1 e2 hle h01 h12
    by_cases h3 : ps.length < 3
    · rw [simplifyF_short h3, simplifyF_short h3]
    · push_neg at h3
      have h3' : ¬ ps.length < 3 := by omega
      have hk := splitIdx_lt h3
      have hml := midOf_length ps
      by_cases c2 : e2 * e2 < maxDistSq ps
      · have c1 : e1 * e1 < maxDistSq ps :=
          lt_of_le_of_lt (mul_self_le_mul_self h01 h12) c2
        rw [simplifyF_succ h3', simplifyF_succ h3', if_pos c2, if_pos c1]
        have hlt : (ps.take (splitIdx ps + 2)).length = splitIdx ps + 2 :=
          List.length_take_of_le (by omega)
        have hL := ih (ps.take (splitIdx ps + 2)) e1 e2 (by omega) h01 h12
        have hR := ih (ps.drop (splitIdx ps + 1)) e1 e2 (by simp; omega) h01 h12
        have hR1h : (simplifyF fuel (ps.drop (splitIdx ps + 1)) e1).head? =
            some ((midOf ps).getD (splitIdx ps) (0, 0)) := by
          rw [simplifyF_head fuel _ e1 (by simp; omega), drop_split h3 hk]
          rfl
        obtain ⟨ys, hys⟩ := List.head?_eq_some_iff.mp hR1h
        have hRd : List.Sublist
            ((simplifyF fuel (ps.drop (splitIdx ps + 1)) e2).drop 1)
            ((simplifyF fuel (ps.drop (splitIdx ps + 1)) e1).drop 1) := by
          rw [hys] at hR ⊢
          simpa using sublist_drop_one_of_cons hR
        exact List.Sublist.append hL hRd
      · rw [simplifyF_succ h3', if_neg c2]
        have hne : ps ≠ [] := by
          intro h0
          rw [h0] at h3
          simp at h3
        have hh2 : (simplifyF (fuel + 1) ps e1).head? = some (headPt ps) := by
          rw [simplifyF_head (fuel + 1) ps e1 hle, head?_eq_headPt hne]
        have hg2 : (simplifyF (fuel + 1) ps e1).getLast? = some (lastPt ps) := by
          rw [simplifyF_getLast (fuel + 1) ps e1 hle, getLast?_eq_lastPt hne]
        have hlen2 := simplifyF_len2 (fuel + 1) ps e1 hle (by omega)
        obtain ⟨m, hm⟩ := eq_cons_append_of hlen2 hh2 hg2
        rw [hm]
        exact List.cons_sublist_cons.mpr (List.singleton_sublist.mpr (by simp))

theorem simplifyF_fuel :
    ∀ (f1 f2 : Nat) (ps : List Point) (eps : ℚ), ps.length ≤ f1 →
      ps.length ≤ f2 → simplifyF f1 ps eps = simplifyF f2 ps eps := by
  intro f1
  induction f1 with
  | zero =>
    intro f2 ps eps h1 h2
    have hnil : ps = [] := by
      cases ps with
      | nil => rfl
      | cons a t => simp at h1
    subst hnil
    rw [simplifyF_short (by simp), simplifyF_short (by simp)]
  | succ f1 ih =>
    intro f2 ps eps h1 h2
    cases f2 with
    | zero =>
      have hnil : ps = [] := by
        cases ps with
        | nil => rfl
        | cons a t => simp at h2
      subst hnil
      rw [simplifyF_short (by simp), simplifyF_short (by simp)]
    | succ f2 =>
      by_cases h3 : ps.length < 3
      · rw [simplifyF_short h3, simplifyF_short h3]
      · push_neg at h3
        have h3' : ¬ ps.length < 3 := by omega
        have hk := splitIdx_lt h3
        have hml := midOf_length ps
        rw [simplifyF_succ h3', simplifyF_succ h3']
        have hlt : (ps.take (splitIdx ps + 2)).length = splitIdx ps + 2 :=
          List.length_take_of_le (by omega)
        by_cases hc : eps * eps < maxDistSq ps
        · rw [if_pos hc, if_pos hc,
            ih f2 (ps.take (splitIdx ps + 2)) eps (by omega) (by omega),
            ih f2 (ps.drop (splitIdx ps + 1)) eps (by simp; omega) (by simp; omega)]
        · rw [if_neg hc, if_neg hc]

theorem simplifyF_idem :
    ∀ (fuel : Nat) (ps : List Point) (eps : ℚ), ps.length ≤ fuel →
      simplifyF fuel (simplifyF fuel ps eps) eps = simplifyF fuel ps eps := by
  intro fuel
  induction fuel with
  | zero => intro ps eps hle; rfl
  | succ fuel ih =>
    intro ps eps hle
    by_cases h3 : ps.length < 3
    · rw [simplifyF_short h3, simplifyF_short h3]
    · push_neg at h3
      have h3' : ¬ ps.length < 3 := by omega
      have hk := splitIdx_lt h3
      have hml := midOf_length ps
      by_cases hc : eps * eps < maxDistSq ps
      · rw [simplifyF_succ h3', if_pos hc]
        have hmidne : midOf ps ≠ [] := by
          intro h0
          rw [h0] at hml
          simp at hml
          omega
        have hbridge : maxDistSq ps =
            distSq ((midOf ps).getD (splitIdx ps) (0, 0)) (headPt ps) (lastPt ps) :=
          farthest_snd_eq (headPt ps) (lastPt ps) (midOf ps) hmidne
        have hlt : (ps.take (splitIdx ps + 2)).length = splitIdx ps + 2 :=
          List.length_take_of_le (by omega)
        have hdlen : (ps.drop (splitIdx ps + 1)).length =
            ps.length - (splitIdx ps + 1) := by simp
        have hL2 : 2 ≤ (simplifyF fuel (ps.take (splitIdx ps + 2)) eps).length :=
          simplifyF_len2 fuel _ eps (by omega) (by omega)
        have hLh : (simplifyF fuel (ps.take (splitIdx ps + 2)) eps).head? =
            some (headPt ps) := by
          rw [simplifyF_head fuel _ eps (by omega), take_split h3 hk]
          rfl
        have hLl : (simplifyF fuel (ps.take (splitIdx ps + 2)) eps).getLast? =
            some ((midOf ps).getD (splitIdx ps) (0, 0)) := by
          rw [simplifyF_getLast fuel _ eps (by omega), take_split h3 hk,
            getLast?_cons_concat]
        obtain ⟨Lm, hLm⟩ := eq_cons_append_of hL2 hLh hLl
        have hR2 : 2 ≤ (simplifyF fuel (ps.drop (splitIdx ps + 1)) eps).length :=
          simplifyF_len2 fuel _ eps (by omega) (by omega)
        have hRh : (simplifyF fuel (ps.drop (splitIdx ps + 1)) eps).head? =
            some ((midOf ps).getD (splitIdx ps) (0, 0)) := by
          rw [simplifyF_head fuel _ eps (by omega), drop_split h3 hk]
          rfl
        have hRl : (simplifyF fuel (ps.drop (splitIdx ps + 1)) eps).getLast? =
            some (lastPt ps) := by
          rw [simplifyF_getLast fuel _ eps (by omega), drop_split h3 hk,
            getLast?_cons_concat]
        obtain ⟨Rm, hRm⟩ := eq_cons_append_of hR2 hRh hRl
        have hLmsub : List.Sublist Lm ((midOf ps).take (splitIdx ps)) := by
          have hs := simplifyF_sublist fuel (ps.take (splitIdx ps + 2)) eps (by omega)
          rw [hLm, take_split h3 hk] at hs
          exact sublist_of_concat_concat (List.cons_sublist_cons.mp hs)
        have hRmsub : List.Sublist Rm ((midOf ps).drop (splitIdx ps + 1)) := by
          have hs := simplifyF_sublist fuel (ps.drop (splitIdx ps + 1)) eps (by omega)
          rw [hRm, drop_split h3 hk] at hs
          exact sublist_of_concat_concat (List.cons_sublist_cons.mp hs)
        have hLmlt : ∀ x ∈ Lm, distSq x (headPt ps) (lastPt ps) <
            distSq ((midOf ps).getD (splitIdx ps) (0, 0)) (headPt ps) (lastPt ps) := by
          intro x hx
          have hx2 := hLmsub.subset hx
          obtain ⟨j, hjlen, hjx⟩ := List.mem_iff_getElem.mp hx2
          have hjk : j < splitIdx ps := by
            have := List.length_take_le (splitIdx ps) (midOf ps)
            omega
          have hjm : j < (midOf ps).length := by omega
          rw [List.getElem_take] at hjx
          have hgd : (midOf ps).getD j (0, 0) = x := by
            rw [List.getD_eq_getElem?_getD, List.getElem?_eq_getElem hjm]
            simpa using hjx
          have hflt := farthest_lt_of_lt (headPt ps) (lastPt ps) (midOf ps) j hjk
          rw [hgd] at hflt
          rw [← hbridge]
          exact hflt
        have hRmle : ∀ x ∈ Rm, distSq x (headPt ps) (lastPt ps) ≤
            distSq ((midOf ps).getD (splitIdx ps) (0, 0)) (headPt ps) (lastPt ps) := by
          intro x hx
          have hx2 : x ∈ midOf ps :=
            List.drop_subset _ _ (hRmsub.subset hx)
          have hfle := farthest_le (headPt ps) (lastPt ps) (midOf ps) x hx2
          rw [← hbridge]
          exact hfle
        have hfarT : farthest (headPt ps) (lastPt ps)
            (Lm ++ (midOf ps).getD (splitIdx ps) (0, 0) :: Rm) =
            (Lm.length,
              distSq ((midOf ps).getD (splitIdx ps) (0, 0)) (headPt ps) (lastPt ps)) :=
          farthest_append _ _ _ Lm Rm hLmlt hRmle
        have hS : simplifyF fuel (ps.take (splitIdx ps + 2)) eps ++
            (simplifyF fuel (ps.drop (splitIdx ps + 1)) eps).drop 1 =
            headPt ps ::
              ((Lm ++ (midOf ps).getD (splitIdx ps) (0, 0) :: Rm) ++ [lastPt ps]) := by
          rw [hLm, hRm]
          simp
        rw [hS]
        have hT3 : ¬ (headPt ps ::
            ((Lm ++ (midOf ps).getD (splitIdx ps) (0, 0) :: Rm) ++
              [lastPt ps])).length < 3 := by
          simp
          omega
        rw [simplifyF_succ hT3]
        have hheadT : headPt (headPt ps ::
            ((Lm ++ (midOf ps).getD (splitIdx ps) (0, 0) :: Rm) ++ [lastPt ps])) =
            headPt ps := headPt_cons _ _
        have hlastT : lastPt (headPt ps ::
            ((Lm ++ (midOf ps).getD (splitIdx ps) (0, 0) :: Rm) ++ [lastPt ps])) =
            lastPt ps := lastPt_cons_concat _ _ _
        have hmidT : midOf (headPt ps ::
            ((Lm ++ (midOf ps).getD (splitIdx ps) (0, 0) :: Rm) ++ [lastPt ps])) =
            Lm ++ (midOf ps).getD (splitIdx ps) (0, 0) :: Rm :=
          midOf_cons_concat _ _ _
        have hsplitT : splitIdx (headPt ps ::
            ((Lm ++ (midOf ps).getD (splitIdx ps) (0, 0) :: Rm) ++ [lastPt ps])) =
            Lm.length := by
          show (farthest
            (headPt (headPt ps ::
              ((Lm ++ (midOf ps).getD (splitIdx ps) (0, 0) :: Rm) ++ [lastPt ps])))
            (lastPt (headPt ps ::
              ((Lm ++ (midOf ps).getD (splitIdx ps) (0, 0) :: Rm) ++ [lastPt ps])))
            (midOf (headPt ps ::
              ((Lm ++ (midOf ps).getD (splitIdx ps) (0, 0) :: Rm) ++
                [lastPt ps])))).1 = Lm.length
          rw [hheadT, hlastT, hmidT, hfarT]
        have hmaxT : maxDistSq (headPt ps ::
            ((Lm ++ (midOf ps).getD (splitIdx ps) (0, 0) :: Rm) ++ [lastPt ps])) =
            maxDistSq ps := by
          show (farthest
            (headPt (headPt ps ::
              ((Lm ++ (midOf ps).getD (splitIdx ps) (0, 0) :: Rm) ++ [lastPt ps])))
            (lastPt (headPt ps ::
              ((Lm ++ (midOf ps).getD (splitIdx ps) (0, 0) :: Rm) ++ [lastPt ps])))
            (midOf (headPt ps ::
              ((Lm ++ (midOf ps).getD (splitIdx ps) (0, 0) :: Rm) ++
                [lastPt ps])))).2 = maxDistSq ps
          rw [hheadT, hlastT, hmidT, hfarT]
          exact hbridge.symm
        rw [hmaxT, hsplitT, if_pos hc]
        have htakeT : (headPt ps ::
            ((Lm ++ (midOf ps).getD (splitIdx ps) (0, 0) :: Rm) ++
              [lastPt ps])).take (Lm.length + 2) =
            simplifyF fuel (ps.take (splitIdx ps + 2)) eps := by
          have hTL : headPt ps ::
              ((Lm ++ (midOf ps).getD (splitIdx ps) (0, 0) :: Rm) ++ [lastPt ps]) =
              simplifyF fuel (ps.take (splitIdx ps + 2)) eps ++ (Rm ++ [lastPt ps]) := by
            rw [hLm]
            simp
          rw [hTL]
          apply List.take_left'
          rw [hLm]
          simp
        have hdropT : (headPt ps ::
            ((Lm ++ (midOf ps).getD (splitIdx ps) (0, 0) :: Rm) ++
              [lastPt ps])).drop (Lm.length + 1) =
            simplifyF fuel (ps.drop (splitIdx ps + 1)) eps := by
          have hTR : headPt ps ::
              ((Lm ++ (midOf ps).getD (splitIdx ps) (0, 0) :: Rm) ++ [lastPt ps]) =
              (headPt ps :: Lm) ++ simplifyF fuel (ps.drop (splitIdx ps + 1)) eps := by
            rw [hRm]
            simp
          rw [hTR]
          apply List.drop_left'
          simp
        rw [htakeT, hdropT,
          ih (ps.take (splitIdx ps + 2)) eps (by omega),
          ih (ps.drop (splitIdx ps + 1)) eps (by omega)]
        exact hS
      · rw [simplifyF_succ h3', if_neg hc]
        exact simplifyF_short (by simp)

theorem simplifyRun_head (ps : List Point) (eps : ℚ) :
    (simplifyRun ps eps).head? = ps.head? :=
  simplifyF_head ps.length ps eps le_rfl

theorem simplifyRun_getLast (ps : List Point) (eps : ℚ) :
    (simplifyRun ps eps).getLast? = ps.getLast? :=
  simplifyF_getLast ps.length ps eps le_rfl

theorem simplifyRun_sublist (ps : List Point) (eps : ℚ) :
    List.Sublist (simplifyRun ps eps) ps :=
  simplifyF_sublist ps.length ps eps le_rfl

theorem simplifyRun_len2 {ps : List Point} (eps : ℚ) (h2 : 2 ≤ ps.length) :
    2 ≤ (simplifyRun ps eps).length :=
  simplifyF_len2 ps.length ps eps le_rfl h2

theorem simplifyRun_mono (ps : List Point) {e1 e2 : ℚ} (h01 : 0 ≤ e1)
    (h12 : e1 ≤ e2) :
    List.Sublist (simplifyRun ps e2) (simplifyRun ps e1) :=
  simplifyF_mono ps.length ps e1 e2 le_rfl h01 h12

theorem simplifyRun_idem (ps : List Point) (eps : ℚ) :
    simplifyRun (simplifyRun ps eps) eps = simplifyRun ps eps := by
  have hlen : (simplifyF ps.length ps eps).length ≤ ps.length :=
    (simplifyF_sublist ps.length ps eps le_rfl).length_le
  show simplifyF (simplifyF ps.length ps eps).length (simplifyF ps.length ps eps) eps
      = simplifyF ps.length ps eps
  rw [simplifyF_fuel (simplifyF ps.length ps eps).length ps.length
    (simplifyF ps.length ps eps) eps le_rfl hlen]
  exact simplifyF_idem ps.length ps eps le_rfl

theorem simplify_ok {ps : List Point} {eps : ℚ} (heps : 0 ≤ eps) :
    simplify ps eps = Except.ok (simplifyRun ps eps) := by
  unfold simplify
  rw [if_neg (not_lt.mpr heps)]

theorem simplify_err {ps : List Point} {eps : ℚ} (hneg : eps < 0) :
    simplify ps eps = Except.error PyError.invalidToleranceError := by
  unfold simplify
  rw [if_pos hneg]

/-- A pandas DataFrame as the pipeline uses it: an ordered collection of
named numeric columns. -/
structure Frame where
  cols : List (String × List ℚ)
deriving DecidableEq

/-- Column access by name, as in `data["lat"]`; `none` when the column is
absent, which is what `{"lat", "lon"}.issubset(data.columns)` tests. -/
def getCol (df : Frame) (name : String) : Option (List ℚ) :=
  df.cols.lookup name

/-- The ordered track `data[["lat", "lon"]].values` extracted by
`simplify_route`: rows paired as `(lat, lon)`. -/
def routeOf (df : Frame) : List Point :=
  ((getCol df "lat").getD []).zip ((getCol df "lon").getD [])

/-- Translated from `src/utils/processing.py`, `simplify_route` (lines
58-85): raises `ValueError` unless both `lat` and `lon` columns are
present (this check runs first); otherwise extracts the `(lat, lon)`
track, invokes the engine `rdp(track, epsilon=epsilon)` — here the
spec-modelled `simplify`, whose failure on a negative tolerance is not
caught and propagates (§7) — and rebuilds a DataFrame holding exactly
the two columns `lat` and `lon` of the simplified track
(`pd.DataFrame(simplified_track, columns=["lat", "lon"])`).
`simplify_route` itself performs no tolerance validation. -/
def simplify_route (data : Frame) (epsilon : ℚ) : Except PyError Frame :=
  if ((getCol data "lat").isSome && (getCol data "lon").isSome) = true then
    (simplify (routeOf data) epsilon).map (fun s =>
      Frame.mk [("lat", s.map Prod.fst), ("lon", s.map Prod.snd)])
  else
    Except.error PyError.valueError

/-- One row of the Excel tables read by `src/utils/modeling.py`: the
`mmsi` key column plus the remaining columns, whose content the lookups
never inspect. -/
structure ShipRow where
  mmsi : Int
  rest : List String
deriving DecidableEq

/-- Translated from `src/utils/modeling.py`, `get_ship_base_info_by_mmsi`
(lines 9-43): reads the registry table (a parameter here, since the Excel
file is external data) and filters it to the rows whose `mmsi` equals the
query, `data[data["mmsi"] == mmsi]`. -/
def get_ship_base_info_by_mmsi (table : List ShipRow) (mmsi : Int) : List ShipRow :=
  table.filter (fun row => row.mmsi == mmsi)

/-- Translated from `src/utils/modeling.py`, `get_ship_performance_by_mmsi`
(lines 46-80): the same filter over the performance table. -/
def get_ship_performance_by_mmsi (table : List ShipRow) (mmsi : Int) : List ShipRow :=
  table.filter (fun row => row.mmsi == mmsi)

/-- Translated from `src/utils/probleming.py`,
`get_ship_potential_optimizations` (lines 10-29): looks the query key up
in the JSON object read from `data/potential_optimizations.json` (a
parameter here) and returns the serialised payload; `data[mmsi]` raises
`KeyError` when the key is absent. -/
def get_ship_potential_optimizations (data : List (Int × String)) (mmsi : Int) :
    Except PyError String :=
  match data.lookup mmsi with
  | some v => Except.ok v
  | none => Except.error PyError.keyError

theorem getCol_build_lat (x y : List ℚ) :
    getCol (Frame.mk [("lat", x), ("lon", y)]) "lat" = some x := rfl

theorem getCol_build_lon (x y : List ℚ) :
    getCol (Frame.mk [("lat", x), ("lon", y)]) "lon" = some y := rfl

theorem zip_fst_snd (s : List Point) :
    (s.map Prod.fst).zip (s.map Prod.snd) = s := by
  rw [List.zip_map']
  simp

theorem routeOf_build (s : List Point) :
    routeOf (Frame.mk [("lat", s.map Prod.fst), ("lon", s.map Prod.snd)]) = s := by
  unfold routeOf
  rw [getCol_build_lat, getCol_build_lon]
  simp only [Option.getD_some]
  exact zip_fst_snd s

theorem simplify_route_ok {df : Frame} {eps : ℚ}
    (hlat : (getCol df "lat").isSome = true)
    (hlon : (getCol df "lon").isSome = true) (heps : 0 ≤ eps) :
    simplify_route df eps = Except.ok (Frame.mk
      [("lat", (simplifyRun (routeOf df) eps).map Prod.fst),
       ("lon", (simplifyRun (routeOf df) eps).map Prod.snd)]) := by
  unfold simplify_route
  rw [if_pos (by simp [hlat, hlon]), simplify_ok heps]
  rfl

theorem simplify_route_err_of_neg {df : Frame} {eps : ℚ}
    (hlat : (getCol df "lat").isSome = true)
    (hlon : (getCol df "lon").isSome = true) (hneg : eps < 0) :
    simplify_route df eps = Except.error PyError.invalidToleranceError := by
  unfold simplify_route
  rw [if_pos (by simp [hlat, hlon]), simplify_err hneg]
  rfl

theorem simplify_route_ok_inv {df : Frame} {eps : ℚ} {out : Frame}
    (hok : simplify_route df eps = Except.ok out) :
    (getCol df "lat").isSome = true ∧ (getCol df "lon").isSome = true ∧
    ¬ eps < 0 ∧
    out = Frame.mk
      [("lat", (simplifyRun (routeOf df) eps).map Prod.fst),
       ("lon", (simplifyRun (routeOf df) eps).map Prod.snd)] := by
  unfold simplify_route at hok
  by_cases hc : ((getCol df "lat").isSome && (getCol df "lon").isSome) = true
  · rw [if_pos hc] at hok
    by_cases hneg : eps < 0
    · rw [simplify_err hneg] at hok
      simp [Except.map] at hok
    · rw [simplify_ok (not_lt.mp hneg)] at hok
      simp only [Except.map, Except.ok.injEq] at hok
      simp only [Bool.and_eq_true] at hc
      exact ⟨hc.1, hc.2, hneg, hok.symm⟩
  · rw [if_neg hc] at hok
    simp at hok

/-- C1: for every input table whose extracted route is non-empty and every
epsilon ≥ 0, the route of the frame returned by `simplify_route` has the
same first and last points as the input route. -/
theorem claim_C1_endpoint_preservation (df : Frame) (eps : ℚ) (out : Frame)
    (heps : 0 ≤ eps) (hne : routeOf df ≠ [])
    (hok : simplify_route df eps = Except.ok out) :
    (routeOf out).head? = (routeOf df).head? ∧
      (routeOf out).getLast? = (routeOf df).getLast? := by
  obtain ⟨hlat, hlon, hnn, hout⟩ := simplify_route_ok_inv hok
  subst hout
  rw [routeOf_build]
  exact ⟨simplifyRun_head _ _, simplifyRun_getLast _ _⟩

theorem claim_C1_endpoint_preservation_witness :
    (0 : ℚ) ≤ 0 ∧
    routeOf (Frame.mk [("lat", [0, 1, 0]), ("lon", [0, 1, 2])]) ≠ [] ∧
    simplify_route (Frame.mk [("lat", [0, 1, 0]), ("lon", [0, 1, 2])]) 0 =
      Except.ok (Frame.mk [("lat", [0, 1, 0]), ("lon", [0, 1, 2])]) ∧
    ((routeOf (Frame.mk [("lat", [0, 1, 0]), ("lon", [0, 1, 2])])).head? =
        (routeOf (Frame.mk [("lat", [0, 1, 0]), ("lon", [0, 1, 2])])).head? ∧
      (routeOf (Frame.mk [("lat", [0, 1, 0]), ("lon", [0, 1, 2])])).getLast? =
        (routeOf (Frame.mk [("lat", [0, 1, 0]), ("lon", [0, 1, 2])])).getLast?) :=
  ⟨le_rfl, by decide, by with_unfolding_all rfl,
    claim_C1_endpoint_preservation _ _ _ le_rfl (by decide)
      (by with_unfolding_all rfl)⟩

/-- C2: for every input table and every epsilon ≥ 0, the route returned by
`simplify_route` is an order-preserving subsequence (`List.Sublist`) of
the input route: no point altered, inserted or reordered. -/
theorem claim_C2_subsequence (df : Frame) (eps : ℚ) (out : Frame)
    (heps : 0 ≤ eps) (hok : simplify_route df eps = Except.ok out) :
    List.Sublist (routeOf out) (routeOf df) := by
  obtain ⟨hlat, hlon, hnn, hout⟩ := simplify_route_ok_inv hok
  subst hout
  rw [routeOf_build]
  exact simplifyRun_sublist _ _

theorem claim_C2_subsequence_witness :
    (0 : ℚ) ≤ 0 ∧
    simplify_route (Frame.mk [("lat", [0, 0, 0]), ("lon", [0, 1, 2])]) 0 =
      Except.ok (Frame.mk [("lat", [0, 0]), ("lon", [0, 2])]) ∧
    List.Sublist (routeOf (Frame.mk [("lat", [0, 0]), ("lon", [0, 2])]))
      (routeOf (Frame.mk [("lat", [0, 0, 0]), ("lon", [0, 1, 2])])) :=
  ⟨le_rfl, by with_unfolding_all rfl,
    claim_C2_subsequence _ _ _ le_rfl (by with_unfolding_all rfl)⟩

/-- C3: for every route and every negative epsilon the spec-modelled
engine `simplify` fails with the input-validation error
`InvalidToleranceError`, eagerly, before any recursion (the error does
not depend on the route at all); hence for every input table with both
coordinate columns, `simplify_route` with a negative epsilon fails with
that error rather than returning a result. -/
theorem claim_C3_invalid_tolerance (df : Frame) (eps : ℚ)
    (hlat : (getCol df "lat").isSome = true)
    (hlon : (getCol df "lon").isSome = true) (hneg : eps < 0) :
    (∀ ps : List Point,
      simplify ps eps = Except.error PyError.invalidToleranceError) ∧
    simplify_route df eps = Except.error PyError.invalidToleranceError :=
  ⟨fun _ => simplify_err hneg, simplify_route_err_of_neg hlat hlon hneg⟩

theorem claim_C3_invalid_tolerance_witness :
    (getCol (Frame.mk [("lat", [0, 1, 0]), ("lon", [0, 1, 2])]) "lat").isSome = true ∧
    (getCol (Frame.mk [("lat", [0, 1, 0]), ("lon", [0, 1, 2])]) "lon").isSome = true ∧
    (-(1/10) : ℚ) < 0 ∧
    ((∀ ps : List Point,
        simplify ps (-(1/10)) = Except.error PyError.invalidToleranceError) ∧
      simplify_route (Frame.mk [("lat", [0, 1, 0]), ("lon", [0, 1, 2])]) (-(1/10)) =
        Except.error PyError.invalidToleranceError) :=
  ⟨rfl, rfl, by norm_num,
    claim_C3_invalid_tolerance _ _ rfl rfl (by norm_num)⟩

/-- C4: the split-point selection used at every recursion level of the
simplifier (`farthest`, the value of `splitIdx`) returns an index that
attains the maximal squared deviation `distSq` while every strictly
earlier interior point has strictly smaller deviation; hence on exact
ties the point with the lowest index is chosen, and the output is
deterministic. -/
theorem claim_C4_tie_break (A B : Point) (l : List Point) (hl : l ≠ []) :
    (farthest A B l).1 < l.length ∧
    (farthest A B l).2 = distSq (l.getD (farthest A B l).1 (0, 0)) A B ∧
    (∀ x ∈ l, distSq x A B ≤ (farthest A B l).2) ∧
    (∀ j, j < (farthest A B l).1 →
      distSq (l.getD j (0, 0)) A B < (farthest A B l).2) :=
  ⟨farthest_fst_lt A B l hl, farthest_snd_eq A B l hl,
    farthest_le A B l, farthest_lt_of_lt A B l⟩

theorem claim_C4_tie_break_witness :
    distSq ((1 : ℚ), (1 : ℚ)) ((0 : ℚ), (0 : ℚ)) ((0 : ℚ), (2 : ℚ)) =
      distSq ((-1 : ℚ), (1 : ℚ)) ((0 : ℚ), (0 : ℚ)) ((0 : ℚ), (2 : ℚ)) ∧
    (farthest ((0 : ℚ), (0 : ℚ)) ((0 : ℚ), (2 : ℚ))
      [((1 : ℚ), (1 : ℚ)), ((-1 : ℚ), (1 : ℚ))]).1 = 0 ∧
    ([((1 : ℚ), (1 : ℚ)), ((-1 : ℚ), (1 : ℚ))] : List Point) ≠ [] ∧
    ((farthest ((0 : ℚ), (0 : ℚ)) ((0 : ℚ), (2 : ℚ))
        [((1 : ℚ), (1 : ℚ)), ((-1 : ℚ), (1 : ℚ))]).1 <
      ([((1 : ℚ), (1 : ℚ)), ((-1 : ℚ), (1 : ℚ))] : List Point).length ∧
    (farthest ((0 : ℚ), (0 : ℚ)) ((0 : ℚ), (2 : ℚ))
        [((1 : ℚ), (1 : ℚ)), ((-1 : ℚ), (1 : ℚ))]).2 =
      distSq ([((1 : ℚ), (1 : ℚ)), ((-1 : ℚ), (1 : ℚ))].getD
        (farthest ((0 : ℚ), (0 : ℚ)) ((0 : ℚ), (2 : ℚ))
          [((1 : ℚ), (1 : ℚ)), ((-1 : ℚ), (1 : ℚ))]).1 (0, 0))
        ((0 : ℚ), (0 : ℚ)) ((0 : ℚ), (2 : ℚ)) ∧
    (∀ x ∈ ([((1 : ℚ), (1 : ℚ)), ((-1 : ℚ), (1 : ℚ))] : List Point),
      distSq x ((0 : ℚ), (0 : ℚ)) ((0 : ℚ), (2 : ℚ)) ≤
        (farthest ((0 : ℚ), (0 : ℚ)) ((0 : ℚ), (2 : ℚ))
          [((1 : ℚ), (1 : ℚ)), ((-1 : ℚ), (1 : ℚ))]).2) ∧
    (∀ j, j < (farthest ((0 : ℚ), (0 : ℚ)) ((0 : ℚ), (2 : ℚ))
        [((1 : ℚ), (1 : ℚ)), ((-1 : ℚ), (1 : ℚ))]).1 →
      distSq ([((1 : ℚ), (1 : ℚ)), ((-1 : ℚ), (1 : ℚ))].getD j (0, 0))
          ((0 : ℚ), (0 : ℚ)) ((0 : ℚ), (2 : ℚ)) <
        (farthest ((0 : ℚ), (0 : ℚ)) ((0 : ℚ), (2 : ℚ))
          [((1 : ℚ), (1 : ℚ)), ((-1 : ℚ), (1 : ℚ))]).2)) :=
  ⟨by with_unfolding_all rfl, by with_unfolding_all rfl, by decide,
    claim_C4_tie_break ((0 : ℚ), (0 : ℚ)) ((0 : ℚ), (2 : ℚ))
      [((1 : ℚ), (1 : ℚ)), ((-1 : ℚ), (1 : ℚ))] (by decide)⟩

/-- C5: for every table and tolerances 0 ≤ e1 ≤ e2, the route produced
with tolerance e2 has at most as many points as the route produced with
tolerance e1. -/
theorem claim_C5_monotonicity (df : Frame) (e1 e2 : ℚ) (out1 out2 : Frame)
    (h1 : 0 ≤ e1) (h12 : e1 ≤ e2)
    (hok1 : simplify_route df e1 = Except.ok out1)
    (hok2 : simplify_route df e2 = Except.ok out2) :
    (routeOf out2).length ≤ (routeOf out1).length := by
  obtain ⟨_, _, _, hout1⟩ := simplify_route_ok_inv hok1
  obtain ⟨_, _, _, hout2⟩ := simplify_route_ok_inv hok2
  subst hout1
  subst hout2
  rw [routeOf_build, routeOf_build]
  exact (simplifyRun_mono (routeOf df) h1 h12).length_le

theorem claim_C5_monotonicity_witness :
    (0 : ℚ) ≤ 0 ∧ (0 : ℚ) ≤ 2 ∧
    simplify_route (Frame.mk [("lat", [0, 1, 0]), ("lon", [0, 1, 2])]) 0 =
      Except.ok (Frame.mk [("lat", [0, 1, 0]), ("lon", [0, 1, 2])]) ∧
    simplify_route (Frame.mk [("lat", [0, 1, 0]), ("lon", [0, 1, 2])]) 2 =
      Except.ok (Frame.mk [("lat", [0, 0]), ("lon", [0, 2])]) ∧
    (routeOf (Frame.mk [("lat", [0, 0]), ("lon", [0, 2])])).length ≤
      (routeOf (Frame.mk [("lat", [0, 1, 0]), ("lon", [0, 1, 2])])).length :=
  ⟨le_rfl, by norm_num, by with_unfolding_all rfl, by with_unfolding_all rfl,
    claim_C5_monotonicity (Frame.mk [("lat", [0, 1, 0]), ("lon", [0, 1, 2])]) 0 2
      (Frame.mk [("lat", [0, 1, 0]), ("lon", [0, 1, 2])])
      (Frame.mk [("lat", [0, 0]), ("lon", [0, 2])]) le_rfl (by norm_num)
      (by with_unfolding_all rfl) (by with_unfolding_all rfl)⟩

/-- C6: re-simplifying the output of `simplify_route` at the same
tolerance is a no-op: the second run returns exactly the first output. -/
theorem claim_C6_idempotence (df : Frame) (eps : ℚ) (out : Frame)
    (heps : 0 ≤ eps) (hok : simplify_route df eps = Except.ok out) :
    simplify_route out eps = Except.ok out := by
  obtain ⟨hlat, hlon, hnn, hout⟩ := simplify_route_ok_inv hok
  subst hout
  have h1 : (getCol (Frame.mk
      [("lat", (simplifyRun (routeOf df) eps).map Prod.fst),
       ("lon", (simplifyRun (routeOf df) eps).map Prod.snd)]) "lat").isSome = true := by
    rw [getCol_build_lat]
    rfl
  have h2 : (getCol (Frame.mk
      [("lat", (simplifyRun (routeOf df) eps).map Prod.fst),
       ("lon", (simplifyRun (routeOf df) eps).map Prod.snd)]) "lon").isSome = true := by
    rw [getCol_build_lon]
    rfl
  rw [simplify_route_ok h1 h2 heps, routeOf_build, simplifyRun_idem]

theorem claim_C6_idempotence_witness :
    (0 : ℚ) ≤ 0 ∧
    simplify_route (Frame.mk [("lat", [0, 0, 0]), ("lon", [0, 1, 2])]) 0 =
      Except.ok (Frame.mk [("lat", [0, 0]), ("lon", [0, 2])]) ∧
    simplify_route (Frame.mk [("lat", [0, 0]), ("lon", [0, 2])]) 0 =
      Except.ok (Frame.mk [("lat", [0, 0]), ("lon", [0, 2])]) :=
  ⟨le_rfl, by with_unfolding_all rfl,
    claim_C6_idempotence (Frame.mk [("lat", [0, 0, 0]), ("lon", [0, 1, 2])]) 0
      (Frame.mk [("lat", [0, 0]), ("lon", [0, 2])]) le_rfl
      (by with_unfolding_all rfl)⟩

/-- C7: `simplify_route` fails with the structural `ValueError` exactly
when the `lat` column or the `lon` column is entirely absent from the
table; with both present it never raises this error. -/
theorem claim_C7_structural_error (df : Frame) (eps : ℚ) :
    simplify_route df eps = Except.error PyError.valueError ↔
      ¬ ((getCol df "lat").isSome = true ∧ (getCol df "lon").isSome = true) := by
  unfold simplify_route
  by_cases hc : ((getCol df "lat").isSome && (getCol df "lon").isSome) = true
  · rw [if_pos hc]
    simp only [Bool.and_eq_true] at hc
    constructor
    · intro h
      exfalso
      by_cases hneg : eps < 0
      · rw [simplify_err hneg] at h
        simp [Except.map] at h
      · rw [simplify_ok (not_lt.mp hneg)] at h
        simp [Except.map] at h
    · intro h
      exact absurd ⟨hc.1, hc.2⟩ h
  · rw [if_neg hc]
    simp only [Bool.and_eq_true] at hc
    simp [hc]

/-- C8 (counterexample): the ship registry lookup returns an empty table
(an ordinary, empty success value) for an identifier with no record,
instead of failing with a not-found error, refuting the claim that every
vessel-identifier lookup surfaces a not-found error. -/
theorem claim_C8_counterexample :
    get_ship_base_info_by_mmsi [ShipRow.mk 563045200 []] 1 = [] := by decide

/-- C8 (amended): only the optimization lookup surfaces a missing
identifier as an error (`KeyError`); the ship registry and performance
lookups return an empty table for an unknown identifier rather than an
error. -/
theorem claim_C8_amended (reg perf : List ShipRow) (opt : List (Int × String))
    (m : Int)
    (hreg : ∀ r ∈ reg, r.mmsi ≠ m) (hperf : ∀ r ∈ perf, r.mmsi ≠ m)
    (hopt : opt.lookup m = none) :
    get_ship_base_info_by_mmsi reg m = [] ∧
    get_ship_performance_by_mmsi perf m = [] ∧
    get_ship_potential_optimizations opt m = Except.error PyError.keyError := by
  refine ⟨?_, ?_, ?_⟩
  · simp only [get_ship_base_info_by_mmsi, List.filter_eq_nil_iff]
    intro r hr
    simpa using hreg r hr
  · simp only [get_ship_performance_by_mmsi, List.filter_eq_nil_iff]
    intro r hr
    simpa using hperf r hr
  · simp [get_ship_potential_optimizations, hopt]

theorem claim_C8_amended_witness :
    (∀ r ∈ [ShipRow.mk 563045200 []], r.mmsi ≠ 2) ∧
    (∀ r ∈ ([] : List ShipRow), r.mmsi ≠ 2) ∧
    ([((1 : Int), "x")].lookup 2 = none) ∧
    (get_ship_base_info_by_mmsi [ShipRow.mk 563045200 []] 2 = [] ∧
      get_ship_performance_by_mmsi [] 2 = [] ∧
      get_ship_potential_optimizations [((1 : Int), "x")] 2 =
        Except.error PyError.keyError) :=
  ⟨by decide, by decide, by decide,
    claim_C8_amended _ _ _ 2 (by decide) (by decide) (by decide)⟩

/-- C9 (counterexample): an extra `speed` column present in the input
table is absent from the output of `simplify_route`, refuting the claim
that columns other than `lat` and `lon` are passed through to the
simplification output. -/
theorem claim_C9_counterexample :
    simplify_route (Frame.mk [("lat", [0, 0, 0]), ("lon", [0, 1, 2]),
        ("speed", [5, 6, 7])]) 0 =
      Except.ok (Frame.mk [("lat", [0, 0]), ("lon", [0, 2])]) ∧
    getCol (Frame.mk [("lat", [0, 0]), ("lon", [0, 2])]) "speed" = none ∧
    getCol (Frame.mk [("lat", [0, 0, 0]), ("lon", [0, 1, 2]),
        ("speed", [5, 6, 7])]) "speed" = some [5, 6, 7] :=
  ⟨by with_unfolding_all rfl, by with_unfolding_all rfl,
    by with_unfolding_all rfl⟩

/-- C9 (amended): the output of `simplify_route` contains exactly the two
columns `lat` and `lon`; every other input column is dropped, not passed
through. -/
theorem claim_C9_amended (df : Frame) (eps : ℚ) (out : Frame)
    (hok : simplify_route df eps = Except.ok out) :
    out.cols.map Prod.fst = ["lat", "lon"] := by
  obtain ⟨_, _, _, hout⟩ := simplify_route_ok_inv hok
  subst hout
  rfl

theorem claim_C9_amended_witness :
    simplify_route (Frame.mk [("lat", [0, 0, 0]), ("lon", [0, 1, 2]),
        ("speed", [5, 6, 7])]) 0 =
      Except.ok (Frame.mk [("lat", [0, 0]), ("lon", [0, 2])]) ∧
    (Frame.mk [("lat", [0, 0]), ("lon", [0, 2])]).cols.map Prod.fst =
      ["lat", "lon"] :=
  ⟨by with_unfolding_all rfl,
    claim_C9_amended (Frame.mk [("lat", [0, 0, 0]), ("lon", [0, 1, 2]),
        ("speed", [5, 6, 7])]) 0
      (Frame.mk [("lat", [0, 0]), ("lon", [0, 2])])
      (by with_unfolding_all rfl)⟩

/-- C10 (counterexample): on a concrete table with both coordinate
columns, `simplify_route` with the negative tolerance -1 fails with the
engine's input-validation error instead of returning every input point:
the spec-modelled engine rejects a negative epsilon eagerly (§4.3, §7,
§8), so the negative tolerance never reaches the recursion, refuting the
claim that no error is raised and all points are returned. -/
theorem claim_C10_counterexample :
    simplify_route (Frame.mk [("lat", [0, 1, 0]), ("lon", [0, 1, 2])]) (-1) =
      Except.error PyError.invalidToleranceError := by
  with_unfolding_all rfl

/-- C10 (amended): with both coordinate columns present and any strictly
negative epsilon, `simplify_route` does not return a result at all: the
engine validates the tolerance eagerly and the resulting
`InvalidToleranceError` propagates, so no point — unchanged or otherwise
— is ever produced. -/
theorem claim_C10_amended (df : Frame) (eps : ℚ)
    (hlat : (getCol df "lat").isSome = true)
    (hlon : (getCol df "lon").isSome = true) (hneg : eps < 0) :
    simplify_route df eps = Except.error PyError.invalidToleranceError :=
  simplify_route_err_of_neg hlat hlon hneg

theorem claim_C10_amended_witness :
    (getCol (Frame.mk [("lat", [0, 1, 0]), ("lon", [0, 1, 2])]) "lat").isSome = true ∧
    (getCol (Frame.mk [("lat", [0, 1, 0]), ("lon", [0, 1, 2])]) "lon").isSome = true ∧
    (-1 : ℚ) < 0 ∧
    simplify_route (Frame.mk [("lat", [0, 1, 0]), ("lon", [0, 1, 2])]) (-1) =
      Except.error PyError.invalidToleranceError :=
  ⟨rfl, rfl, by norm_num,
    claim_C10_amended _ _ rfl rfl (by norm_num)⟩

end Dolphiner
